import Mathlib

/-!
Verification development for the estimagic multistart / trust-region-sampling
engine.  The repository ships only the documentation notebooks for this
subsystem, so the executable definitions below are modelled from the
specification document (each doc comment says what it models); the notebooks
`explanation_trust_region_sampling.ipynb` and `how_to_pick_an_optimizer.ipynb`
fix the public names (`get_next_trust_region_points_latin_hypercube`,
`get_existing_points`, keys `points` / `crit_vals`) and the calling
conventions used here.  Scalars are rationals; the random generator is an
explicitly threaded deterministic state, as demanded by the spec.
-/

namespace Estimagic

/-- Modelled from the spec: the explicitly passed, seedable random-generator
handle ("explicit, not global, state").  A linear-congruential step on a
natural-number state stands in for the numpy generator. -/
def lcg (s : Nat) : Nat := (75 * s + 74) % 65537

/-- Modelled from the spec: a uniform draw in `[0, 1)` extracted from a
generator state, used for "jittering within each cell". -/
def unitFrac (s : Nat) : ℚ := ((s % 256 : Nat) : ℚ) / 256

/-- Modelled from the spec: "randomly permuting equally spaced grid levels per
axis".  Draws a random permutation of `l` by repeatedly extracting a randomly
chosen element; `fuel` bounds the recursion and is instantiated with the
length of `l`. -/
def drawPerm : Nat → List Nat → Nat → List Nat × Nat
  | 0, _, s => ([], s)
  | fuel + 1, l, s =>
    match l with
    | [] => ([], s)
    | a :: t =>
      let s2 := lcg s
      let i := s2 % (a :: t).length
      let x := (a :: t).getD i a
      let rest := (a :: t).eraseIdx i
      let res := drawPerm fuel rest s2
      (x :: res.1, res.2)

/-- Modelled from the spec: one grid-level permutation for each of the `d`
axes of the trust region, each over the levels `0, …, k-1`. -/
def drawPerms : Nat → Nat → Nat → List (List Nat) × Nat
  | 0, _, s => ([], s)
  | dd + 1, k, s =>
    let p := drawPerm k (List.range k) s
    let rest := drawPerms dd k p.2
    (p.1 :: rest.1, rest.2)

/-- Modelled from the spec: the coordinates of the `i`-th new point.  Axis `j`
places the point inside cell `perms[j][i]` of the `k`-bin discretisation of
`[c_j - radius, c_j + radius]`, jittered uniformly within the cell. -/
def mkCoords (radius : ℚ) (k : Nat) (i : Nat) :
    List ℚ → List (List Nat) → Nat → List ℚ × Nat
  | [], _, s => ([], s)
  | c :: cs, perms, s =>
    let lvl := (perms.headD []).getD i 0
    let s2 := lcg s
    let u := unitFrac s2
    let coord := (c - radius) + ((lvl : ℚ) + u) * (2 * radius / (k : ℚ))
    let rest := mkCoords radius k i cs perms.tail s2
    (coord :: rest.1, rest.2)

/-- Modelled from the spec: the points with indices `i, i+1, …, i+r-1` of one
candidate arrangement. -/
def mkPointsFrom (center : List ℚ) (radius : ℚ) (k : Nat)
    (perms : List (List Nat)) : Nat → Nat → Nat → List (List ℚ) × Nat
  | _, 0, s => ([], s)
  | i, r + 1, s =>
    let p := mkCoords radius k i center perms s
    let rest := mkPointsFrom center radius k perms (i + 1) r p.2
    (p.1 :: rest.1, rest.2)

/-- Modelled from the spec: "draw a candidate Latin-Hypercube-style
arrangement of `k` new points over the region … by randomly permuting equally
spaced grid levels per axis and jittering within each cell". -/
def sampleLatinHypercube (center : List ℚ) (radius : ℚ) (k : Nat) (s : Nat) :
    List (List ℚ) × Nat :=
  let perms := drawPerms center.length k s
  mkPointsFrom center radius k perms.1 0 k perms.2

/-- Modelled from the spec: the sequence of candidate arrangements examined by
the search loop, `n` iterations threading one generator state. -/
def sampleSeq (center : List ℚ) (radius : ℚ) (k : Nat) :
    Nat → Nat → List (List (List ℚ)) × Nat
  | 0, s => ([], s)
  | n + 1, s =>
    let c := sampleLatinHypercube center radius k s
    let rest := sampleSeq center radius k n c.2
    (c.1 :: rest.1, rest.2)

/-- The bin index of point `p` along axis `j` when each axis of the trust
region is discretised into `n` equal-width bins (the discretisation used by
the Latin property in the spec's glossary). -/
def binIndexAt (center : List ℚ) (radius : ℚ) (n : Nat) (p : List ℚ)
    (j : Nat) : ℤ :=
  Int.floor ((p.getD j 0 - (center.getD j 0 - radius)) / (2 * radius / (n : ℚ)))

/-- The Latin property from the spec: "discretizing each axis into `n` equal
bins, each bin index appears exactly once per axis". -/
def latinProperty (center : List ℚ) (radius : ℚ) (n : Nat)
    (pts : List (List ℚ)) : Prop :=
  ∀ j < center.length, ∀ b < n,
    (pts.map (fun p => binIndexAt center radius n p j)).count ((b : Nat) : ℤ) = 1

/-- Modelled from the spec: the closed enumeration of supported optimality
criteria `a`, `d`, `e`, `g` and `maximin`. -/
inductive OptimalityCriterion
  | aopt
  | dopt
  | eopt
  | gopt
  | maximin
deriving DecidableEq

/-- The Gram matrix `XᵀX` of the design matrix whose rows are the points
("scored on the design matrix of the combined point set"). -/
def designGram (d : Nat) (pts : List (List ℚ)) : Matrix (Fin d) (Fin d) ℚ :=
  Matrix.of fun a b => (pts.map (fun p => p.getD a 0 * p.getD b 0)).sum

/-- Squared Euclidean distance between two points. -/
def sqDist (p q : List ℚ) : ℚ := (List.zipWith (fun x y => (x - y) ^ 2) p q).sum

/-- All pairwise squared distances of a point set. -/
def pairSqDists : List (List ℚ) → List ℚ
  | [] => []
  | p :: rest => rest.map (sqDist p) ++ pairSqDists rest

/-- Minimum of a list of rationals, `none` when the list is empty. -/
def minQ : List ℚ → Option ℚ
  | [] => none
  | x :: xs =>
    some (match minQ xs with
      | none => x
      | some m => min x m)

/-- Maximum of a list of rationals, `none` when the list is empty. -/
def maxQ : List ℚ → Option ℚ
  | [] => none
  | x :: xs =>
    some (match maxQ xs with
      | none => x
      | some m => max x m)

/-- Quadratic form `pᵀ M p` of a point against a `d × d` matrix. -/
def quadForm (d : Nat) (M : Matrix (Fin d) (Fin d) ℚ) (p : List ℚ) : ℚ :=
  Finset.univ.sum fun a : Fin d =>
    Finset.univ.sum fun b : Fin d => p.getD a 0 * M a b * p.getD b 0

/-- Modelled from the spec: the pure scoring function `score(points) ->
scalar` of each optimality criterion, with one consistent sign convention —
higher is better for every variant.  Scores live in `WithBot ℚ` so that the
spec's documented fallback "treat singular matrices as worst-possible score"
is exact (`⊥`).  Over the rationals the classical functionals appear through
rational surrogates: `maximin` uses the minimum pairwise squared distance
(which orders designs as the minimum Euclidean distance does), `d` is
`det XᵀX`, `a` is `-trace((XᵀX)⁻¹)` computed through the adjugate, `e` is the
harmonic lower bound `det/trace(adj)` for the smallest eigenvalue, and `g` is
minus the largest leverage `xᵀ(XᵀX)⁻¹x`. -/
def scoreOf : OptimalityCriterion → Nat → List (List ℚ) → WithBot ℚ
  | .maximin, _, pts =>
    match minQ (pairSqDists pts) with
    | none => ⊥
    | some m => (m : WithBot ℚ)
  | .dopt, d, pts => ((designGram d pts).det : WithBot ℚ)
  | .aopt, d, pts =>
    let G := designGram d pts
    if G.det = 0 then ⊥
    else ((-(Matrix.trace (Matrix.adjugate G) / G.det) : ℚ) : WithBot ℚ)
  | .eopt, d, pts =>
    let G := designGram d pts
    if G.det = 0 then ⊥
    else ((G.det / Matrix.trace (Matrix.adjugate G) : ℚ) : WithBot ℚ)
  | .gopt, d, pts =>
    let G := designGram d pts
    if G.det = 0 then ⊥
    else
      match maxQ (pts.map fun p => quadForm d (Matrix.adjugate G) p / G.det) with
      | none => ⊥
      | some m => ((-m : ℚ) : WithBot ℚ)

/-- Modelled from the spec: `InvalidDesignError` — "malformed sampling
request (region or point-count parameters out of range)". -/
inductive InvalidDesignError
  | badRadius
  | badNPoints
  | dimMismatch
deriving DecidableEq

/-- Modelled from the spec: region membership of a previously evaluated
point, "tested via `all(|p_i - center_i| <= radius)`". -/
def inRegion (center : List ℚ) (radius : ℚ) (p : List ℚ) : Bool :=
  (List.zipWith (fun c x => decide (|x - c| ≤ radius)) center p).all id

/-- `get_existing_points` (name fixed by the trust-region notebook): the
points of a previous sample that lie inside the new region; "points failing
membership are discarded, not translated". -/
def get_existing_points (sample : List (List ℚ)) (center : List ℚ)
    (radius : ℚ) : List (List ℚ) :=
  sample.filter (inRegion center radius)

/-- The Optimal Design record of the spec's data model: the ordered point
set together with its criterion value and the history of candidate scores
across the search iterations (the notebook exposes the latter two as the
mapping keys `points` and `crit_vals`). -/
structure OptimalDesign where
  points : List (List ℚ)
  crit_val : WithBot ℚ
  crit_vals : List (WithBot ℚ)
deriving DecidableEq

/-- Modelled from the spec: "retain the candidate with the best score. Ties
broken by first-found."  Folds over the scored candidates keeping the current
best unless a strictly better score appears. -/
def pickBestAux (b : List (List ℚ) × WithBot ℚ) :
    List (List (List ℚ) × WithBot ℚ) → List (List ℚ) × WithBot ℚ
  | [] => b
  | x :: xs => pickBestAux (if b.2 < x.2 then x else b) xs

/-- Modelled from the spec (§4.1): the search loop.  `iters` candidate
Latin-Hypercube-style arrangements of `k` new points are drawn, each combined
with the fixed existing points and scored; the candidate with the best score
is retained (ties broken by first-found), and all candidate scores are
recorded as the design's history. -/
def searchDesign (center : List ℚ) (radius : ℚ) (valid : List (List ℚ))
    (k : Nat) (crit : OptimalityCriterion) (iters : Nat) (s : Nat) :
    OptimalDesign × Nat :=
  let cands := sampleSeq center radius k iters s
  let scored := cands.1.map fun c =>
    (valid ++ c, scoreOf crit center.length (valid ++ c))
  let best := pickBestAux (scored.headD ([], ⊥)) scored.tail
  ({ points := best.1, crit_val := best.2,
     crit_vals := scored.map Prod.snd }, cands.2)

/-- Modelled from the spec (§4.1), name fixed by the trust-region notebook:
`generate(center, radius, n_points, existing_points, optimality_criterion,
n_iterations, rng) -> OptimalDesign`.  Validates the request
(`InvalidDesignError` on `radius ≤ 0`, `n_points < 1` or mismatched
dimensionality of the existing points), keeps the existing points inside the
region, returns the first `n_points` of them when no new points are needed,
and otherwise searches `n_iterations` candidate arrangements (at least one)
for the best combined score, threading the explicit generator state. -/
def get_next_trust_region_points_latin_hypercube (center : List ℚ)
    (radius : ℚ) (n_points : Nat) (existing_points : Option (List (List ℚ)))
    (optimality_criterion : OptimalityCriterion) (n_iter : Nat) (s : Nat) :
    Except InvalidDesignError (OptimalDesign × Nat) :=
  if radius ≤ 0 then .error .badRadius
  else if n_points < 1 then .error .badNPoints
  else if (existing_points.getD []).any
      (fun p => p.length != center.length) then .error .dimMismatch
  else
    let valid := get_existing_points (existing_points.getD []) center radius
    if n_points ≤ valid.length then
      let pts := valid.take n_points
      .ok ({ points := pts,
             crit_val := scoreOf optimality_criterion center.length pts,
             crit_vals := [] }, s)
    else
      .ok (searchDesign center radius valid (n_points - valid.length)
        optimality_criterion (max 1 n_iter) s)

/-- The design carried by a successful sampler result (a default empty design
on error; claims about it always come with a success fact). -/
def designOfResult : Except InvalidDesignError (OptimalDesign × Nat) →
    OptimalDesign
  | .ok r => r.1
  | .error _ => { points := [], crit_val := ⊥, crit_vals := [] }

/-- Whether the sampler returned a design rather than an
`InvalidDesignError`. -/
def isSuccess : Except InvalidDesignError (OptimalDesign × Nat) → Bool
  | .ok _ => true
  | .error _ => false

/-- The point set of a sampler result, empty on error (used to state concrete
evaluations of the sampler). -/
def pointsOfResult : Except InvalidDesignError (OptimalDesign × Nat) →
    List (List ℚ)
  | .ok r => r.1.points
  | .error _ => []

/-- The Local Optimum Record of the spec's data model: "the result of one
local optimization run: final point, final criterion value, start point,
success flag". -/
structure LocalOptimumRecord where
  finalPoint : List ℚ
  finalValue : ℚ
  startPoint : List ℚ
  success : Bool
deriving DecidableEq

/-- Modelled from the spec: the convex combination
`w * best_known + (1 - w) * next_point`, coordinatewise. -/
def combinePoint (w : ℚ) (a b : List ℚ) : List ℚ :=
  List.zipWith (fun x y => w * x + (1 - w) * y) a b

/-- The better of two Local Optimum Records under the minimisation
convention of the multistart engine; ties keep the incumbent. -/
def betterRecord (r current : LocalOptimumRecord) : LocalOptimumRecord :=
  if r.finalValue < current.finalValue then r else current

/-- Fold a new record into the best-known record, which may still be
absent. -/
def updBest (bestRec : Option LocalOptimumRecord) (r : LocalOptimumRecord) :
    Option LocalOptimumRecord :=
  some (match bestRec with
    | some c => betterRecord r c
    | none => r)

/-- The final point of the best-known record, falling back to the best
exploration point while no local run has completed ("`best_known_so_far`
updates to the best Local Optimum Record's final point once available"). -/
def bestPointOf (bestRec : Option LocalOptimumRecord) (fallback : List ℚ) :
    List ℚ :=
  match bestRec with
  | some r => r.finalPoint
  | none => fallback

/-- The best-known record after folding the records of the local runs started
from the given points (`runLocal` is the injected collaborator of §4.5). -/
def bestRecFrom (runLocal : List ℚ → LocalOptimumRecord)
    (init : Option LocalOptimumRecord) (starts : List (List ℚ)) :
    Option LocalOptimumRecord :=
  starts.foldl (fun acc p => updBest acc (runLocal p)) init

/-- Modelled from the spec (§4.4): the scheduling loop after the first start
point.  Start `i` blends the best-known point with the next ranked sample
point using weight `w i`; the record of the run started there is folded into
the best-known record before the next start is computed. -/
def startsAux (w : Nat → ℚ) (runLocal : List ℚ → LocalOptimumRecord) :
    Nat → Option LocalOptimumRecord → List ℚ → List (List ℚ) → List (List ℚ)
  | _, _, _, [] => []
  | i, bestRec, fallback, p :: rest =>
    let start := combinePoint (w i) (bestPointOf bestRec fallback) p
    start ::
      startsAux w runLocal (i + 1) (updBest bestRec (runLocal start)) fallback
        rest

/-- Modelled from the spec (§4.4): the Start-Point Scheduler.  "The first
start point is the best point of the ranked exploration sample"; every later
start point is the convex combination of the best-known point and the next
ranked point, with the best-known record updated after each completed local
run (the loop is sequential at the scheduling level, §5). -/
def scheduleStarts (ranked : List (List ℚ)) (w : Nat → ℚ)
    (runLocal : List ℚ → LocalOptimumRecord) : List (List ℚ) :=
  match ranked with
  | [] => []
  | best :: rest =>
    best :: startsAux w runLocal 1 (updBest none (runLocal best)) best rest

/-- The states of the Convergence Tracker's state machine (§4.6);
`exhausted` is reached outside the step function, when the schedule runs out,
so the stepped status is `running` or `converged`. -/
inductive MultistartStatus
  | running
  | converged
deriving DecidableEq

/-- The Multistart State of the spec's data model: best record so far, the
rediscovery counter, and the tracker status. -/
structure TrackerState where
  best : Option LocalOptimumRecord
  discoveries : Nat
  status : MultistartStatus
deriving DecidableEq

/-- Modelled from the spec: the initial tracker state — `running`, with
`best = None`, `discoveries = 0`. -/
def initTracker : TrackerState :=
  { best := none, discoveries := 0, status := .running }

/-- Modelled from the spec: the maximum relative difference across parameter
coordinates, the rediscovery metric of §4.6. -/
def maxRelDiff (a b : List ℚ) : ℚ :=
  (List.zipWith (fun x y => |x - y| / max 1 |y|) a b).foldl max 0

/-- Whether a new record rediscovers the incumbent best optimum (is within
`relative_params_tolerance` of it). -/
def isRediscovery (tol : ℚ) (r best : LocalOptimumRecord) : Bool :=
  decide (maxRelDiff r.finalPoint best.finalPoint ≤ tol)

/-- Modelled from the spec (§4.6): one step of the Convergence Tracker.  A
first or strictly improving record becomes the new best and resets the
counter; a rediscovery increments it; the state transitions to `converged`
when `discoveries` reaches `max_discoveries` and is absorbing thereafter. -/
def trackerStep (tol : ℚ) (maxDisc : Nat) (st : TrackerState)
    (r : LocalOptimumRecord) : TrackerState :=
  match st.status with
  | .converged => st
  | .running =>
    let upd :=
      match st.best with
      | none => (some r, 0)
      | some b =>
        if isRediscovery tol r b then (some b, st.discoveries + 1)
        else if r.finalValue < b.finalValue then (some r, 0)
        else (some b, st.discoveries)
    { best := upd.1, discoveries := upd.2,
      status := if maxDisc ≤ upd.2 then .converged else .running }

/-- The tracker state after observing a stream of completed local optima. -/
def runTracker (tol : ℚ) (maxDisc : Nat)
    (records : List LocalOptimumRecord) : TrackerState :=
  records.foldl (trackerStep tol maxDisc) initTracker

/-- Modelled from the spec (§4.3): split the inputs into batches of
`batch_size`; each batch is dispatched to the worker pool as one unit. -/
def chunkList (b : Nat) (l : List α) : List (List α) :=
  match b, l with
  | _, [] => []
  | 0, _ :: _ => []
  | b + 1, x :: xs =>
    ((x :: xs).take (b + 1)) :: chunkList (b + 1) ((x :: xs).drop (b + 1))
termination_by l.length
decreasing_by
  simp only [List.drop_succ_cons, List.length_drop, List.length_cons]
  exact Nat.lt_succ_of_le (Nat.sub_le _ _)

/-- Modelled from the spec (§4.3): the Batch Evaluator's
`map(fn, inputs, n_cores, batch_size)`.  Batches are evaluated (possibly on
`n_cores` parallel workers, which affects scheduling only — outputs are
collected per index) and the ordered results concatenated, so result order
matches input order regardless of the execution strategy. -/
def batchEvaluatorMap (f : α → β) (inputs : List α) (n_cores : Nat)
    (batch_size : Nat) : List β :=
  ((chunkList batch_size inputs).map fun chunk => chunk.map f).flatten

/-- Modelled from the spec: the ambient global random state that the Design
Sampler must never read or mutate (§4.1, design note on global random
state). -/
structure AmbientState where
  globalRng : Nat
deriving DecidableEq

/-- The generator step of the world-threaded sampler: the whole world — the
explicit generator plus the ambient global state — is available at every
draw, and the code draws from the explicit component only. -/
def lcgW (p : Nat × AmbientState) : Nat × AmbientState := (lcg p.1, p.2)

/-- World-threaded version of `drawPerm`. -/
def drawPermW : Nat → List Nat → Nat × AmbientState →
    List Nat × (Nat × AmbientState)
  | 0, _, s => ([], s)
  | fuel + 1, l, s =>
    match l with
    | [] => ([], s)
    | a :: t =>
      let s2 := lcgW s
      let i := s2.1 % (a :: t).length
      let x := (a :: t).getD i a
      let rest := (a :: t).eraseIdx i
      let res := drawPermW fuel rest s2
      (x :: res.1, res.2)

/-- World-threaded version of `drawPerms`. -/
def drawPermsW : Nat → Nat → Nat × AmbientState →
    List (List Nat) × (Nat × AmbientState)
  | 0, _, s => ([], s)
  | dd + 1, k, s =>
    let p := drawPermW k (List.range k) s
    let rest := drawPermsW dd k p.2
    (p.1 :: rest.1, rest.2)

/-- World-threaded version of `mkCoords`. -/
def mkCoordsW (radius : ℚ) (k : Nat) (i : Nat) :
    List ℚ → List (List Nat) → Nat × AmbientState →
    List ℚ × (Nat × AmbientState)
  | [], _, s => ([], s)
  | c :: cs, perms, s =>
    let lvl := (perms.headD []).getD i 0
    let s2 := lcgW s
    let u := unitFrac s2.1
    let coord := (c - radius) + ((lvl : ℚ) + u) * (2 * radius / (k : ℚ))
    let rest := mkCoordsW radius k i cs perms.tail s2
    (coord :: rest.1, rest.2)

/-- World-threaded version of `mkPointsFrom`. -/
def mkPointsFromW (center : List ℚ) (radius : ℚ) (k : Nat)
    (perms : List (List Nat)) : Nat → Nat → Nat × AmbientState →
    List (List ℚ) × (Nat × AmbientState)
  | _, 0, s => ([], s)
  | i, r + 1, s =>
    let p := mkCoordsW radius k i center perms s
    let rest := mkPointsFromW center radius k perms (i + 1) r p.2
    (p.1 :: rest.1, rest.2)

/-- World-threaded version of `sampleLatinHypercube`. -/
def sampleLatinHypercubeW (center : List ℚ) (radius : ℚ) (k : Nat)
    (s : Nat × AmbientState) : List (List ℚ) × (Nat × AmbientState) :=
  let perms := drawPermsW center.length k s
  mkPointsFromW center radius k perms.1 0 k perms.2

/-- World-threaded version of `sampleSeq`. -/
def sampleSeqW (center : List ℚ) (radius : ℚ) (k : Nat) :
    Nat → Nat × AmbientState → List (List (List ℚ)) × (Nat × AmbientState)
  | 0, s => ([], s)
  | n + 1, s =>
    let c := sampleLatinHypercubeW center radius k s
    let rest := sampleSeqW center radius k n c.2
    (c.1 :: rest.1, rest.2)

/-- The Design Sampler's generate operation executed inside a world that
carries an ambient global random state next to the explicit generator: every
random draw goes through `lcgW`, which has the full world available.  Its
relation to `get_next_trust_region_points_latin_hypercube` is what the
no-global-state guarantee of the spec asserts. -/
def generateW (center : List ℚ) (radius : ℚ) (n_points : Nat)
    (existing_points : Option (List (List ℚ)))
    (optimality_criterion : OptimalityCriterion) (n_iter : Nat)
    (s : Nat) (w : AmbientState) :
    Except InvalidDesignError (OptimalDesign × Nat) × AmbientState :=
  if radius ≤ 0 then (.error .badRadius, w)
  else if n_points < 1 then (.error .badNPoints, w)
  else if (existing_points.getD []).any
      (fun p => p.length != center.length) then (.error .dimMismatch, w)
  else
    let valid := get_existing_points (existing_points.getD []) center radius
    if n_points ≤ valid.length then
      let pts := valid.take n_points
      (.ok ({ points := pts,
              crit_val := scoreOf optimality_criterion center.length pts,
              crit_vals := [] }, s), w)
    else
      let cands := sampleSeqW center radius (n_points - valid.length)
        (max 1 n_iter) (s, w)
      let scored := cands.1.map fun c =>
        (valid ++ c, scoreOf optimality_criterion center.length (valid ++ c))
      let best := pickBestAux (scored.headD ([], ⊥)) scored.tail
      (.ok ({ points := best.1, crit_val := best.2,
              crit_vals := scored.map Prod.snd }, cands.2.1), cands.2.2)

/-! ### Lemmas about the candidate sampler -/

theorem perm_getD_cons_eraseIdx (l : List α) (i : Nat) (h : i < l.length)
    (dflt : α) : (l.getD i dflt :: l.eraseIdx i).Perm l := by
  induction l generalizing i with
  | nil => simp at h
  | cons a t ih =>
    cases i with
    | zero => simp
    | succ n =>
      simp only [List.length_cons, Nat.succ_lt_succ_iff] at h
      simp only [List.getD_cons_succ, List.eraseIdx_cons_succ]
      exact (List.Perm.swap a (t.getD n dflt) (t.eraseIdx n)).trans
        ((ih n h).cons a)

theorem drawPerm_perm :
    ∀ (fuel : Nat) (l : List Nat) (s : Nat), l.length ≤ fuel →
      ((drawPerm fuel l s).1).Perm l := by
  intro fuel
  induction fuel with
  | zero =>
    intro l s h
    have hl : l = [] := List.eq_nil_of_length_eq_zero (Nat.le_zero.mp h)
    subst hl
    simp [drawPerm]
  | succ n ih =>
    intro l s h
    cases l with
    | nil => simp [drawPerm]
    | cons a t =>
      have hilt : lcg s % (a :: t).length < (a :: t).length :=
        Nat.mod_lt _ (by simp)
      have hrest : ((a :: t).eraseIdx (lcg s % (a :: t).length)).length ≤ n := by
        rw [List.length_eraseIdx]
        simp only [hilt, if_true]
        simp only [List.length_cons] at h ⊢
        omega
      have h1 := ih ((a :: t).eraseIdx (lcg s % (a :: t).length)) (lcg s) hrest
      simp only [drawPerm]
      exact (h1.cons _).trans
        (perm_getD_cons_eraseIdx (a :: t) (lcg s % (a :: t).length) hilt a)

theorem drawPerms_length (dd k : Nat) :
    ∀ s : Nat, ((drawPerms dd k s).1).length = dd := by
  induction dd with
  | zero => intro s; simp [drawPerms]
  | succ n ih => intro s; simp [drawPerms, ih]

theorem drawPerms_mem (dd k : Nat) :
    ∀ (s : Nat), ∀ p ∈ (drawPerms dd k s).1, p.Perm (List.range k) := by
  induction dd with
  | zero => intro s p hp; simp [drawPerms] at hp
  | succ n ih =>
    intro s p hp
    simp only [drawPerms, List.mem_cons] at hp
    rcases hp with h | h
    · subst h
      exact drawPerm_perm k (List.range k) s (by simp)
    · exact ih _ p h

theorem unitFrac_nonneg (s : Nat) : 0 ≤ unitFrac s := by
  unfold unitFrac
  positivity

theorem unitFrac_lt_one (s : Nat) : unitFrac s < 1 := by
  unfold unitFrac
  rw [div_lt_one (by norm_num)]
  exact_mod_cast Nat.mod_lt s (by norm_num)

theorem mkCoords_bin (radius : ℚ) (k : Nat) (hr : 0 < radius) (hk : 0 < k)
    (i : Nat) :
    ∀ (cs : List ℚ) (perms : List (List Nat)) (s : Nat) (j : Nat),
      j < cs.length →
      Int.floor ((((mkCoords radius k i cs perms s).1).getD j 0 -
          (cs.getD j 0 - radius)) / (2 * radius / (k : ℚ))) =
        (((perms.getD j []).getD i 0 : ℕ) : ℤ) := by
  intro cs
  induction cs with
  | nil =>
    intro _ _ j hj
    simp at hj
  | cons c cs ih =>
    intro perms s j hj
    have hkq : (0 : ℚ) < (k : ℚ) := by exact_mod_cast hk
    have hst : (2 * radius / (k : ℚ)) ≠ 0 := by positivity
    cases j with
    | zero =>
      simp only [mkCoords, List.getD_cons_zero]
      rw [add_sub_cancel_left, mul_div_cancel_right₀ _ hst, add_comm,
        Int.floor_add_nat, Int.floor_eq_zero_iff.mpr
          ⟨unitFrac_nonneg _, unitFrac_lt_one _⟩]
      simp only [zero_add, Nat.cast_inj]
      cases perms <;> rfl
    | succ n =>
      simp only [mkCoords, List.getD_cons_succ]
      have hperm : perms.getD (n + 1) [] = perms.tail.getD n [] := by
        cases perms <;> simp [List.getD]
      rw [hperm]
      exact ih perms.tail (lcg s) n (by simpa using hj)

theorem mkPointsFrom_length (center : List ℚ) (radius : ℚ) (k : Nat)
    (perms : List (List Nat)) :
    ∀ (r i s : Nat), ((mkPointsFrom center radius k perms i r s).1).length = r := by
  intro r
  induction r with
  | zero => intro i s; simp [mkPointsFrom]
  | succ n ih => intro i s; simp [mkPointsFrom, ih]

theorem mkPointsFrom_map_bin (center : List ℚ) (radius : ℚ) (k : Nat)
    (perms : List (List Nat)) (hr : 0 < radius) (hk : 0 < k) (j : Nat)
    (hj : j < center.length) :
    ∀ (r i s : Nat),
      ((mkPointsFrom center radius k perms i r s).1).map
          (fun p => binIndexAt center radius k p j) =
        (List.range' i r).map (fun m => (((perms.getD j []).getD m 0 : ℕ) : ℤ)) := by
  intro r
  induction r with
  | zero => intro i s; simp [mkPointsFrom]
  | succ n ih =>
    intro i s
    simp only [mkPointsFrom, List.map_cons, List.range'_succ]
    refine congrArg₂ _ ?_ (ih (i + 1) _)
    unfold binIndexAt
    exact mkCoords_bin radius k hr hk i center perms s j hj

theorem map_getD_range (l : List α) (dflt : α) :
    (List.range l.length).map (fun m => l.getD m dflt) = l := by
  induction l with
  | nil => simp
  | cons a t ih =>
    rw [List.length_cons, List.range_succ_eq_map, List.map_cons, List.map_map]
    have hfun : ((fun m => (a :: t).getD m dflt) ∘ Nat.succ) =
        fun m => t.getD m dflt := by
      funext m
      simp
    rw [hfun, ih]
    simp

theorem sampleLatinHypercube_length (center : List ℚ) (radius : ℚ) (k s : Nat) :
    ((sampleLatinHypercube center radius k s).1).length = k := by
  unfold sampleLatinHypercube
  exact mkPointsFrom_length _ _ _ _ _ _ _

/-- A freshly drawn candidate arrangement of `k` points satisfies the Latin
property over `k` bins per axis. -/
theorem sampleLatinHypercube_latin (center : List ℚ) (radius : ℚ) (k : Nat)
    (s : Nat) (hr : 0 < radius) (hk : 0 < k) :
    latinProperty center radius k (sampleLatinHypercube center radius k s).1 := by
  intro j hj b hb
  unfold sampleLatinHypercube
  set perms := (drawPerms center.length k s).1 with hperms
  have hlen : perms.length = center.length := drawPerms_length _ _ _
  have hjp : j < perms.length := by rw [hlen]; exact hj
  have hmem : perms.getD j [] ∈ perms := by
    have := List.getD_eq_getElem perms [] hjp
    rw [this]
    exact List.getElem_mem hjp
  have hpj : (perms.getD j []).Perm (List.range k) := drawPerms_mem _ _ _ _ hmem
  have hlenpj : (perms.getD j []).length = k := by
    simpa using hpj.length_eq
  rw [mkPointsFrom_map_bin center radius k perms hr hk j hj k 0 _,
    ← List.range_eq_range']
  have hcast : Function.Injective (fun n : ℕ => (n : ℤ)) :=
    fun a b h => Nat.cast_inj.mp h
  calc ((List.range k).map fun m => (((perms.getD j []).getD m 0 : ℕ) : ℤ)).count
        ((b : ℕ) : ℤ)
      = (((List.range k).map fun m => (perms.getD j []).getD m 0).map
          (fun n : ℕ => (n : ℤ))).count ((b : ℕ) : ℤ) := by
        rw [List.map_map]
        rfl
    _ = (((perms.getD j []).map (fun n : ℕ => (n : ℤ)))).count ((b : ℕ) : ℤ) := by
        rw [← hlenpj, map_getD_range]
    _ = (((List.range k).map (fun n : ℕ => (n : ℤ)))).count ((b : ℕ) : ℤ) :=
        (hpj.map _).count_eq _
    _ = (List.range k).count b := List.count_map_of_injective _ _ hcast _
    _ = 1 := List.count_eq_one_of_mem (List.nodup_range k) (List.mem_range.mpr hb)

/-! ### Lemmas about the search loop -/

theorem pickBestAux_eq_or_mem :
    ∀ (l : List (List (List ℚ) × WithBot ℚ)) (b),
      pickBestAux b l = b ∨ pickBestAux b l ∈ l := by
  intro l
  induction l with
  | nil => intro b; left; rfl
  | cons x xs ih =>
    intro b
    rcases ih (if b.2 < x.2 then x else b) with h | h
    · rw [pickBestAux, h]
      by_cases hlt : b.2 < x.2
      · right
        simp [hlt]
      · left
        simp [hlt]
    · right
      rw [pickBestAux]
      exact List.mem_cons_of_mem _ h

theorem pickBestAux_le_self :
    ∀ (l : List (List (List ℚ) × WithBot ℚ)) (b), b.2 ≤ (pickBestAux b l).2 := by
  intro l
  induction l with
  | nil => intro b; exact le_refl _
  | cons x xs ih =>
    intro b
    refine le_trans ?_ (ih (if b.2 < x.2 then x else b))
    by_cases hlt : b.2 < x.2
    · simp [hlt, le_of_lt hlt]
    · simp [hlt]

theorem pickBestAux_le_mem :
    ∀ (l : List (List (List ℚ) × WithBot ℚ)) (b) (x), x ∈ l →
      x.2 ≤ (pickBestAux b l).2 := by
  intro l
  induction l with
  | nil => intro b x hx; simp at hx
  | cons y ys ih =>
    intro b x hx
    rcases List.mem_cons.mp hx with h | h
    · subst h
      rw [pickBestAux]
      refine le_trans ?_ (pickBestAux_le_self ys _)
      by_cases hlt : b.2 < x.2
      · simp [hlt]
      · simp only [if_neg hlt]
        exact le_of_not_lt hlt
    · exact ih _ x h

theorem pickBestAux_append :
    ∀ (l m : List (List (List ℚ) × WithBot ℚ)) (b),
      pickBestAux b (l ++ m) = pickBestAux (pickBestAux b l) m := by
  intro l
  induction l with
  | nil => intro m b; rfl
  | cons x xs ih =>
    intro m b
    rw [List.cons_append, pickBestAux, pickBestAux, ih]

/-- The retained candidate is one of the scored candidates. -/
theorem pickBest_mem (scored : List (List (List ℚ) × WithBot ℚ))
    (h : scored ≠ []) :
    pickBestAux (scored.headD ([], ⊥)) scored.tail ∈ scored := by
  cases scored with
  | nil => exact absurd rfl h
  | cons x xs =>
    rcases pickBestAux_eq_or_mem xs x with h1 | h1
    · rw [List.headD_cons, List.tail_cons, h1]
      exact List.mem_cons_self x xs
    · rw [List.headD_cons, List.tail_cons]
      exact List.mem_cons_of_mem _ h1

/-- The retained candidate's score dominates every recorded score. -/
theorem pickBest_ge (scored : List (List (List ℚ) × WithBot ℚ)) (x)
    (hx : x ∈ scored) :
    x.2 ≤ (pickBestAux (scored.headD ([], ⊥)) scored.tail).2 := by
  cases scored with
  | nil => simp at hx
  | cons y ys =>
    rcases List.mem_cons.mp hx with h | h
    · subst h
      exact pickBestAux_le_self ys _
    · exact pickBestAux_le_mem ys _ x h

theorem sampleSeq_length (center : List ℚ) (radius : ℚ) (k : Nat) :
    ∀ (n s : Nat), ((sampleSeq center radius k n s).1).length = n := by
  intro n
  induction n with
  | zero => intro s; simp [sampleSeq]
  | succ m ih => intro s; simp [sampleSeq, ih]

theorem sampleSeq_mem (center : List ℚ) (radius : ℚ) (k : Nat) :
    ∀ (n s : Nat) (c), c ∈ (sampleSeq center radius k n s).1 →
      ∃ s2, c = (sampleLatinHypercube center radius k s2).1 := by
  intro n
  induction n with
  | zero => intro s c hc; simp [sampleSeq] at hc
  | succ m ih =>
    intro s c hc
    simp only [sampleSeq, List.mem_cons] at hc
    rcases hc with h | h
    · exact ⟨s, h⟩
    · exact ih _ c h

theorem sampleSeq_add (center : List ℚ) (radius : ℚ) (k : Nat) :
    ∀ (n m s : Nat),
      sampleSeq center radius k (n + m) s =
        ((sampleSeq center radius k n s).1 ++
            (sampleSeq center radius k m (sampleSeq center radius k n s).2).1,
          (sampleSeq center radius k m (sampleSeq center radius k n s).2).2) := by
  intro n
  induction n with
  | zero =>
    intro m s
    simp [sampleSeq]
  | succ a ih =>
    intro m s
    have : a + 1 + m = (a + m) + 1 := by omega
    rw [this]
    simp only [sampleSeq]
    rw [ih m _]
    simp [sampleSeq]

/-- Unfolding of the sampler on the search branch: valid request and not
enough reusable points. -/
theorem generate_search (center : List ℚ) (radius : ℚ) (n_points : Nat)
    (existing : Option (List (List ℚ))) (crit : OptimalityCriterion)
    (n_iter s : Nat) (hr : 0 < radius)
    (hdim : ∀ p ∈ existing.getD [], p.length = center.length)
    (hlt : (get_existing_points (existing.getD []) center radius).length
      < n_points) :
    get_next_trust_region_points_latin_hypercube center radius n_points
        existing crit n_iter s =
      .ok (searchDesign center radius
        (get_existing_points (existing.getD []) center radius)
        (n_points - (get_existing_points (existing.getD [])
          center radius).length)
        crit (max 1 n_iter) s) := by
  have hany : (existing.getD []).any (fun p => p.length != center.length)
      = false := by
    rw [List.any_eq_false]
    intro p hp
    simp [hdim p hp]
  unfold get_next_trust_region_points_latin_hypercube
  rw [if_neg (not_le.mpr hr), if_neg (by omega : ¬ n_points < 1)]
  rw [hany]
  simp only [Bool.false_eq_true, if_false]
  rw [if_neg (not_le.mpr hlt)]

/-- Unfolding of the sampler on the early-return branch: enough reusable
points, the first `n_points` of them are returned unchanged. -/
theorem generate_reuse (center : List ℚ) (radius : ℚ) (n_points : Nat)
    (existing : Option (List (List ℚ))) (crit : OptimalityCriterion)
    (n_iter s : Nat) (hr : 0 < radius) (hn : 1 ≤ n_points)
    (hdim : ∀ p ∈ existing.getD [], p.length = center.length)
    (hge : n_points ≤
      (get_existing_points (existing.getD []) center radius).length) :
    get_next_trust_region_points_latin_hypercube center radius n_points
        existing crit n_iter s =
      .ok ({ points := (get_existing_points (existing.getD [])
               center radius).take n_points,
             crit_val := scoreOf crit center.length
               ((get_existing_points (existing.getD [])
                 center radius).take n_points),
             crit_vals := [] }, s) := by
  have hany : (existing.getD []).any (fun p => p.length != center.length)
      = false := by
    rw [List.any_eq_false]
    intro p hp
    simp [hdim p hp]
  unfold get_next_trust_region_points_latin_hypercube
  rw [if_neg (not_le.mpr hr), if_neg (by omega : ¬ n_points < 1)]
  rw [hany]
  simp only [Bool.false_eq_true, if_false]
  rw [if_pos hge]

theorem searchDesign_points (center : List ℚ) (radius : ℚ)
    (valid : List (List ℚ)) (k : Nat) (crit : OptimalityCriterion)
    (iters s : Nat) (hi : 1 ≤ iters) :
    ∃ c, (∃ s2, c = (sampleLatinHypercube center radius k s2).1) ∧
      (searchDesign center radius valid k crit iters s).1.points =
        valid ++ c := by
  have hlen : ((sampleSeq center radius k iters s).1).length = iters :=
    sampleSeq_length _ _ _ _ _
  have hne : ((sampleSeq center radius k iters s).1.map fun c =>
      (valid ++ c, scoreOf crit center.length (valid ++ c))) ≠ [] := by
    intro hcon
    have := congrArg List.length hcon
    simp [hlen] at this
    omega
  have hmem := pickBest_mem _ hne
  rcases List.mem_map.mp hmem with ⟨c, hc, heq⟩
  refine ⟨c, sampleSeq_mem _ _ _ _ _ _ hc, ?_⟩
  show (pickBestAux _ _).1 = valid ++ c
  rw [← heq]

theorem searchDesign_score (center : List ℚ) (radius : ℚ)
    (valid : List (List ℚ)) (k : Nat) (crit : OptimalityCriterion)
    (iters s : Nat) (hi : 1 ≤ iters) :
    (searchDesign center radius valid k crit iters s).1.crit_val =
        scoreOf crit center.length
          (searchDesign center radius valid k crit iters s).1.points ∧
      (searchDesign center radius valid k crit iters s).1.crit_val ∈
        (searchDesign center radius valid k crit iters s).1.crit_vals ∧
      ∀ v ∈ (searchDesign center radius valid k crit iters s).1.crit_vals,
        v ≤ (searchDesign center radius valid k crit iters s).1.crit_val := by
  have hlen : ((sampleSeq center radius k iters s).1).length = iters :=
    sampleSeq_length _ _ _ _ _
  have hne : ((sampleSeq center radius k iters s).1.map fun c =>
      (valid ++ c, scoreOf crit center.length (valid ++ c))) ≠ [] := by
    intro hcon
    have := congrArg List.length hcon
    simp [hlen] at this
    omega
  have hmem := pickBest_mem _ hne
  refine ⟨?_, ?_, ?_⟩
  · rcases List.mem_map.mp hmem with ⟨c, _, heq⟩
    show (pickBestAux _ _).2 = scoreOf crit center.length (pickBestAux _ _).1
    rw [← heq]
  · exact List.mem_map_of_mem Prod.snd hmem
  · intro v hv
    rcases List.mem_map.mp hv with ⟨x, hx, hxe⟩
    show v ≤ (pickBestAux _ _).2
    rw [← hxe]
    exact pickBest_ge _ x hx

theorem searchDesign_lengths (center : List ℚ) (radius : ℚ)
    (valid : List (List ℚ)) (k : Nat) (crit : OptimalityCriterion)
    (iters s : Nat) (hi : 1 ≤ iters) :
    (searchDesign center radius valid k crit iters s).1.points.length =
        valid.length + k ∧
      (searchDesign center radius valid k crit iters s).1.crit_vals.length =
        iters := by
  constructor
  · rcases searchDesign_points center radius valid k crit iters s hi with
      ⟨c, ⟨s2, hc⟩, hpts⟩
    rw [hpts, List.length_append, hc, sampleLatinHypercube_length]
  · show ((_ : List _).map Prod.snd).length = iters
    rw [List.length_map, List.length_map, sampleSeq_length]

theorem searchDesign_mono (center : List ℚ) (radius : ℚ)
    (valid : List (List ℚ)) (k : Nat) (crit : OptimalityCriterion)
    (i1 i2 s : Nat) (h1 : 1 ≤ i1) (h12 : i1 ≤ i2) :
    (searchDesign center radius valid k crit i1 s).1.crit_val ≤
      (searchDesign center radius valid k crit i2 s).1.crit_val := by
  have hsplit : i2 = i1 + (i2 - i1) := by omega
  have hadd := sampleSeq_add center radius k i1 (i2 - i1) s
  have hlen : ((sampleSeq center radius k i1 s).1).length = i1 :=
    sampleSeq_length _ _ _ _ _
  rcases hl : (sampleSeq center radius k i1 s).1 with _ | ⟨c0, cs⟩
  · rw [hl] at hlen
    simp at hlen
    omega
  · show (pickBestAux _ _).2 ≤ (pickBestAux _ _).2
    rw [hsplit, hadd, hl]
    simp only [List.cons_append, List.map_append, List.map_cons,
      List.headD_cons, List.tail_cons]
    rw [pickBestAux_append]
    exact pickBestAux_le_self _ _

/-! ### Claim theorems for the Design Sampler -/

/-- C1: for every call to the Design Sampler's generate operation with
`existing_points = None`, the returned point set satisfies the Latin
property — discretising each axis of the trust region into `n_points`
equal-width bins, each bin index appears exactly once per axis. -/
theorem design_sampler_fresh_latin_property (center : List ℚ) (radius : ℚ)
    (n_points : Nat) (crit : OptimalityCriterion) (n_iter s : Nat)
    (hr : 0 < radius) (hn : 1 ≤ n_points) :
    isSuccess (get_next_trust_region_points_latin_hypercube center radius
        n_points none crit n_iter s) = true ∧
      latinProperty center radius n_points
        (designOfResult (get_next_trust_region_points_latin_hypercube center
          radius n_points none crit n_iter s)).points := by
  have hval : get_existing_points ((none : Option (List (List ℚ))).getD [])
      center radius = [] := rfl
  have hlt : (get_existing_points ((none : Option (List (List ℚ))).getD [])
      center radius).length < n_points := by
    rw [hval]
    simpa using hn
  rw [generate_search center radius n_points none crit n_iter s hr
    (by simp) hlt]
  refine ⟨rfl, ?_⟩
  rw [hval]
  simp only [List.length_nil, Nat.sub_zero]
  rcases searchDesign_points center radius [] n_points crit (max 1 n_iter) s
    (le_max_left 1 n_iter) with ⟨c, ⟨s2, hc⟩, hpts⟩
  show latinProperty center radius n_points
    (searchDesign center radius [] n_points crit (max 1 n_iter) s).1.points
  rw [hpts, List.nil_append, hc]
  exact sampleLatinHypercube_latin center radius n_points s2 hr hn

/-- Witness for C1 at a concrete input. -/
theorem design_sampler_fresh_latin_property_witness :
    isSuccess (get_next_trust_region_points_latin_hypercube [0] 1 2 none
        .maximin 1 0) = true ∧
      latinProperty [0] 1 2
        (designOfResult (get_next_trust_region_points_latin_hypercube [0] 1 2
          none .maximin 1 0)).points :=
  design_sampler_fresh_latin_property [0] 1 2 .maximin 1 0 (by norm_num)
    (by norm_num)

/-- C9: generate fails with `InvalidDesignError` exactly when `radius ≤ 0`,
`n_points < 1`, or some existing point has mismatched dimensionality, and
raises no such error for inputs satisfying all three preconditions. -/
theorem design_sampler_invalid_design_error (center : List ℚ) (radius : ℚ)
    (n_points : Nat) (existing : Option (List (List ℚ)))
    (crit : OptimalityCriterion) (n_iter s : Nat) :
    isSuccess (get_next_trust_region_points_latin_hypercube center radius
        n_points existing crit n_iter s) = false ↔
      (radius ≤ 0 ∨ n_points < 1 ∨
        (existing.getD []).any (fun p => p.length != center.length) = true) := by
  have hok : ∀ (c : Prop) (inst : Decidable c) (x y : OptimalDesign × Nat),
      isSuccess (if c then Except.ok x else Except.ok y) = true := by
    intro c inst x y
    split <;> rfl
  unfold get_next_trust_region_points_latin_hypercube
  split_ifs with h1 h2 h3
  · simp [isSuccess, h1]
  · simp [isSuccess, h1, h2]
  · simp [isSuccess, h1, h2, h3]
  · rw [hok]
    simp [h1, h2, h3]

/-- C10: every successful call returns an Optimal Design carrying the
`points` key — the `n_points`-point set of the design — and the `crit_vals`
key — the criterion values recorded across the search iterations (empty when
the design was returned without a search, one per iteration otherwise, with
the retained value among them). -/
theorem design_sampler_result_keys (center : List ℚ) (radius : ℚ)
    (n_points : Nat) (existing : Option (List (List ℚ)))
    (crit : OptimalityCriterion) (n_iter s : Nat) (hr : 0 < radius)
    (hn : 1 ≤ n_points)
    (hdim : ∀ p ∈ existing.getD [], p.length = center.length) :
    isSuccess (get_next_trust_region_points_latin_hypercube center radius
        n_points existing crit n_iter s) = true ∧
      (designOfResult (get_next_trust_region_points_latin_hypercube center
        radius n_points existing crit n_iter s)).points.length = n_points ∧
      (designOfResult (get_next_trust_region_points_latin_hypercube center
        radius n_points existing crit n_iter s)).crit_vals.length =
        (if n_points ≤ (get_existing_points (existing.getD [])
            center radius).length then 0 else max 1 n_iter) := by
  by_cases hge : n_points ≤
      (get_existing_points (existing.getD []) center radius).length
  · rw [generate_reuse center radius n_points existing crit n_iter s hr hn
      hdim hge, if_pos hge]
    refine ⟨rfl, ?_, rfl⟩
    show ((get_existing_points (existing.getD []) center radius).take
      n_points).length = n_points
    rw [List.length_take]
    omega
  · have hlt := not_le.mp hge
    rw [generate_search center radius n_points existing crit n_iter s hr
      hdim hlt, if_neg hge]
    rcases searchDesign_lengths center radius
        (get_existing_points (existing.getD []) center radius)
        (n_points - (get_existing_points (existing.getD [])
          center radius).length) crit (max 1 n_iter) s
        (le_max_left 1 n_iter) with ⟨hp, hc⟩
    refine ⟨rfl, ?_, hc⟩
    rw [show (designOfResult (Except.ok (searchDesign center radius
        (get_existing_points (existing.getD []) center radius)
        (n_points - (get_existing_points (existing.getD [])
          center radius).length) crit (max 1 n_iter) s))) =
      (searchDesign center radius
        (get_existing_points (existing.getD []) center radius)
        (n_points - (get_existing_points (existing.getD [])
          center radius).length) crit (max 1 n_iter) s).1 from rfl, hp]
    omega

/-- Witness for C10 at a concrete input. -/
theorem design_sampler_result_keys_witness :
    isSuccess (get_next_trust_region_points_latin_hypercube [0] 1 1
        (some [[0]]) .maximin 5 7) = true ∧
      (designOfResult (get_next_trust_region_points_latin_hypercube [0] 1 1
        (some [[0]]) .maximin 5 7)).points.length = 1 ∧
      (designOfResult (get_next_trust_region_points_latin_hypercube [0] 1 1
        (some [[0]]) .maximin 5 7)).crit_vals.length =
        (if 1 ≤ (get_existing_points ((some [[(0:ℚ)]]).getD [])
            [0] 1).length then 0 else max 1 5) :=
  design_sampler_result_keys [0] 1 1 (some [[0]]) .maximin 5 7 (by norm_num)
    (by norm_num) (by decide)

/-- C6: every supported optimality criterion (`a`, `d`, `e`, `g`, `maximin`)
is a pure scoring function from a point set to a scalar (`scoreOf`) under one
consistent higher-is-better sign convention, and the search loop retains the
candidate with the highest score: the returned design's criterion value is
the score of its own point set, appears among the recorded candidate scores,
and dominates every recorded candidate score. -/
theorem optimality_criterion_argmax (crit : OptimalityCriterion)
    (center : List ℚ) (radius : ℚ) (n_points : Nat) (n_iter s : Nat)
    (hr : 0 < radius) (hn : 1 ≤ n_points) :
    (designOfResult (get_next_trust_region_points_latin_hypercube center
        radius n_points none crit n_iter s)).crit_val =
        scoreOf crit center.length
          (designOfResult (get_next_trust_region_points_latin_hypercube
            center radius n_points none crit n_iter s)).points ∧
      (designOfResult (get_next_trust_region_points_latin_hypercube center
        radius n_points none crit n_iter s)).crit_val ∈
        (designOfResult (get_next_trust_region_points_latin_hypercube center
          radius n_points none crit n_iter s)).crit_vals ∧
      ∀ v ∈ (designOfResult (get_next_trust_region_points_latin_hypercube
          center radius n_points none crit n_iter s)).crit_vals,
        v ≤ (designOfResult (get_next_trust_region_points_latin_hypercube
          center radius n_points none crit n_iter s)).crit_val := by
  have hlt : (get_existing_points ((none : Option (List (List ℚ))).getD [])
      center radius).length < n_points := by
    simpa using hn
  rw [generate_search center radius n_points none crit n_iter s hr
    (by simp) hlt]
  exact searchDesign_score center radius _ _ crit (max 1 n_iter) s
    (le_max_left 1 n_iter)

/-- Witness for C6 at a concrete input. -/
theorem optimality_criterion_argmax_witness :
    (designOfResult (get_next_trust_region_points_latin_hypercube [0] 1 1
        none .dopt 2 3)).crit_val =
        scoreOf .dopt (List.length [(0:ℚ)])
          (designOfResult (get_next_trust_region_points_latin_hypercube
            [0] 1 1 none .dopt 2 3)).points ∧
      (designOfResult (get_next_trust_region_points_latin_hypercube [0] 1 1
        none .dopt 2 3)).crit_val ∈
        (designOfResult (get_next_trust_region_points_latin_hypercube [0] 1 1
          none .dopt 2 3)).crit_vals ∧
      ∀ v ∈ (designOfResult (get_next_trust_region_points_latin_hypercube
          [0] 1 1 none .dopt 2 3)).crit_vals,
        v ≤ (designOfResult (get_next_trust_region_points_latin_hypercube
          [0] 1 1 none .dopt 2 3)).crit_val :=
  optimality_criterion_argmax .dopt [0] 1 1 2 3 (by norm_num) (by norm_num)

/-- C8: for a fixed seed and otherwise identical inputs, increasing
`n_iterations` never decreases the best optimality score found — each
iteration retains the best-scoring candidate seen so far, and a longer run
examines a superset of the candidates of a shorter run. -/
theorem design_sampler_best_score_monotone (center : List ℚ) (radius : ℚ)
    (n_points : Nat) (existing : Option (List (List ℚ)))
    (crit : OptimalityCriterion) (t1 t2 s : Nat) (hr : 0 < radius)
    (hn : 1 ≤ n_points)
    (hdim : ∀ p ∈ existing.getD [], p.length = center.length)
    (h12 : t1 ≤ t2) :
    (designOfResult (get_next_trust_region_points_latin_hypercube center
        radius n_points existing crit t1 s)).crit_val ≤
      (designOfResult (get_next_trust_region_points_latin_hypercube center
        radius n_points existing crit t2 s)).crit_val := by
  by_cases hge : n_points ≤
      (get_existing_points (existing.getD []) center radius).length
  · rw [generate_reuse center radius n_points existing crit t1 s hr hn
      hdim hge, generate_reuse center radius n_points existing crit t2 s hr
      hn hdim hge]
  · have hlt := not_le.mp hge
    rw [generate_search center radius n_points existing crit t1 s hr
      hdim hlt, generate_search center radius n_points existing crit t2 s hr
      hdim hlt]
    exact searchDesign_mono center radius _ _ crit (max 1 t1) (max 1 t2) s
      (le_max_left 1 t1) (by omega)

/-- Witness for C8 at a concrete input. -/
theorem design_sampler_best_score_monotone_witness :
    (designOfResult (get_next_trust_region_points_latin_hypercube [0] 1 1
        none .maximin 1 11)).crit_val ≤
      (designOfResult (get_next_trust_region_points_latin_hypercube [0] 1 1
        none .maximin 3 11)).crit_val :=
  design_sampler_best_score_monotone [0] 1 1 none .maximin 1 3 11
    (by norm_num) (by norm_num) (by simp) (by norm_num)

/-- C2 fails as stated: with more in-region existing points than `n_points`,
the sampler returns only the first `n_points` of them (spec §4.1), so an
in-region existing point can be absent from the returned design.  Concrete
counterexample: `center = [0]`, `radius = 1`, `n_points = 1`,
`existing_points = [[0], [1/2]]` — both points lie inside the region, yet
`[1/2]` does not appear in the returned point set. -/
theorem existing_points_dropped_counterexample :
    inRegion [0] 1 [(0 : ℚ)] = true ∧
      inRegion [0] 1 [(1 : ℚ)/2] = true ∧
      isSuccess (get_next_trust_region_points_latin_hypercube [0] 1 1
        (some [[0], [1/2]]) .maximin 3 9) = true ∧
      ¬ [(1 : ℚ)/2] ∈ pointsOfResult
        (get_next_trust_region_points_latin_hypercube [0] 1 1
          (some [[0], [1/2]]) .maximin 3 9) := by
  have h0 : inRegion [0] 1 [(0 : ℚ)] = true := by
    unfold inRegion
    simp
  have h12 : inRegion [0] 1 [(1 : ℚ)/2] = true := by
    unfold inRegion
    simp
    rw [abs_of_nonneg (by norm_num)]
    norm_num
  have hval : get_existing_points [[(0 : ℚ)], [1/2]] [0] 1 =
      [[(0 : ℚ)], [1/2]] := by
    unfold get_existing_points
    rw [List.filter_cons_of_pos (by exact h0),
      List.filter_cons_of_pos (by exact h12), List.filter_nil]
  have hgen := generate_reuse [0] 1 1 (some [[(0 : ℚ)], [1/2]]) .maximin 3 9
    (by norm_num) (by norm_num)
    (by
      intro q hq
      rcases List.mem_cons.mp hq with h | h
      · subst h; rfl
      · rcases List.mem_cons.mp h with h2 | h2
        · subst h2; rfl
        · simp at h2)
    (by
      show 1 ≤ (get_existing_points [[(0 : ℚ)], [1/2]] [0] 1).length
      rw [hval]
      norm_num)
  refine ⟨h0, h12, ?_, ?_⟩
  · rw [hgen]
    rfl
  · rw [hgen]
    show ¬ [(1 : ℚ)/2] ∈ (get_existing_points [[(0 : ℚ)], [1/2]] [0] 1).take 1
    rw [hval]
    intro hmem
    simp at hmem

/-- C2 (amended): for every call whose in-region existing points number at
most `n_points`, each existing point lying inside the new region appears
unchanged — the exact vector, not approximated, translated, or rescaled — in
the returned design's point set. -/
theorem existing_points_reused_exactly (center : List ℚ) (radius : ℚ)
    (n_points : Nat) (existing : List (List ℚ))
    (crit : OptimalityCriterion) (n_iter s : Nat) (p : List ℚ)
    (hr : 0 < radius)
    (hdim : ∀ q ∈ existing, q.length = center.length)
    (hcount : (get_existing_points existing center radius).length ≤ n_points)
    (hp : p ∈ existing) (hin : inRegion center radius p = true) :
    isSuccess (get_next_trust_region_points_latin_hypercube center radius
        n_points (some existing) crit n_iter s) = true ∧
      p ∈ pointsOfResult (get_next_trust_region_points_latin_hypercube center
        radius n_points (some existing) crit n_iter s) := by
  have hpv : p ∈ get_existing_points existing center radius :=
    List.mem_filter.mpr ⟨hp, hin⟩
  have hvpos : 1 ≤ (get_existing_points existing center radius).length :=
    List.length_pos.mpr (List.ne_nil_of_mem hpv)
  have hn : 1 ≤ n_points := le_trans hvpos hcount
  have hdim2 : ∀ q ∈ (some existing).getD [], q.length = center.length := by
    simpa using hdim
  by_cases hge : n_points ≤ (get_existing_points existing center radius).length
  · have heq : n_points = (get_existing_points existing center radius).length :=
      le_antisymm hge hcount
    rw [generate_reuse center radius n_points (some existing) crit n_iter s hr
      hn hdim2 (by simpa using hge)]
    refine ⟨rfl, ?_⟩
    show p ∈ (get_existing_points ((some existing).getD []) center
      radius).take n_points
    have : get_existing_points ((some existing).getD []) center radius =
        get_existing_points existing center radius := rfl
    rw [this, heq, List.take_length]
    exact hpv
  · have hlt := not_le.mp hge
    rw [generate_search center radius n_points (some existing) crit n_iter s
      hr hdim2 (by simpa using hlt)]
    refine ⟨rfl, ?_⟩
    rcases searchDesign_points center radius
        (get_existing_points ((some existing).getD []) center radius)
        (n_points - (get_existing_points ((some existing).getD [])
          center radius).length) crit (max 1 n_iter) s
        (le_max_left 1 n_iter) with ⟨c, _, hpts⟩
    show p ∈ (searchDesign center radius _ _ crit (max 1 n_iter) s).1.points
    rw [hpts]
    exact List.mem_append_left c hpv

/-- Witness for the amended C2 at a concrete input. -/
theorem existing_points_reused_exactly_witness :
    isSuccess (get_next_trust_region_points_latin_hypercube [0] 1 2
        (some [[0]]) .maximin 1 5) = true ∧
      [(0 : ℚ)] ∈ pointsOfResult
        (get_next_trust_region_points_latin_hypercube [0] 1 2
          (some [[0]]) .maximin 1 5) :=
  existing_points_reused_exactly [0] 1 2 [[0]] .maximin 1 5 [(0 : ℚ)]
    (by norm_num)
    (by intro q hq; simp at hq; subst hq; rfl)
    (by
      show (get_existing_points [[(0 : ℚ)]] [0] 1).length ≤ 2
      unfold get_existing_points
      rw [List.filter_cons_of_pos (by unfold inRegion; simp), List.filter_nil]
      norm_num)
    (by simp)
    (by unfold inRegion; simp)

/-! ### Start-Point Scheduler (C3) -/

theorem startsAux_getD (w : Nat → ℚ) (runLocal : List ℚ → LocalOptimumRecord) :
    ∀ (rest : List (List ℚ)) (i : Nat) (bestRec : Option LocalOptimumRecord)
      (fallback : List ℚ) (m : Nat), m < rest.length →
      (startsAux w runLocal i bestRec fallback rest).getD m [] =
        combinePoint (w (i + m))
          (bestPointOf (bestRecFrom runLocal bestRec
            ((startsAux w runLocal i bestRec fallback rest).take m)) fallback)
          (rest.getD m []) := by
  intro rest
  induction rest with
  | nil =>
    intro i bestRec fallback m hm
    simp at hm
  | cons p ps ih =>
    intro i bestRec fallback m hm
    cases m with
    | zero =>
      simp [startsAux, bestRecFrom]
    | succ m' =>
      have h := ih (i + 1)
        (updBest bestRec (runLocal
          (combinePoint (w i) (bestPointOf bestRec fallback) p)))
        fallback m' (by simpa using hm)
      simp only [startsAux, List.getD_cons_succ, List.take_succ_cons]
      rw [h]
      have harg : i + 1 + m' = i + (m' + 1) := by omega
      rw [harg]
      rfl

/-- C3: for every schedule produced by the Start-Point Scheduler from a
ranked exploration sample, the first start point equals the best point of the
ranked sample, and every subsequent start point `i` equals the convex
combination `w_i * best_known_so_far + (1 - w_i) * next_ranked_sample_point`,
where the best-known point is the best Local Optimum Record's final point
over the runs completed so far (one is always available after the first
run). -/
theorem scheduler_start_points (b : List ℚ) (rest : List (List ℚ))
    (w : Nat → ℚ) (runLocal : List ℚ → LocalOptimumRecord) :
    (scheduleStarts (b :: rest) w runLocal).headD [] = b ∧
      ∀ m < rest.length,
        (scheduleStarts (b :: rest) w runLocal).getD (m + 1) [] =
          combinePoint (w (m + 1))
            (bestPointOf (bestRecFrom runLocal none
              ((scheduleStarts (b :: rest) w runLocal).take (m + 1))) b)
            (rest.getD m []) := by
  refine ⟨rfl, ?_⟩
  intro m hm
  have h := startsAux_getD w runLocal rest 1 (updBest none (runLocal b)) b m hm
  show (startsAux w runLocal 1 (updBest none (runLocal b)) b rest).getD m []
    = _
  rw [h]
  have harg : 1 + m = m + 1 := by omega
  rw [harg]
  rfl

/-- Witness for C3 at a concrete input. -/
theorem scheduler_start_points_witness :
    (scheduleStarts [[(0 : ℚ)], [2]] (fun _ => 1/2)
        (fun p => ⟨p, 0, p, true⟩)).headD [] = [(0 : ℚ)] ∧
      ∀ m < ([[(2 : ℚ)]] : List (List ℚ)).length,
        (scheduleStarts [[(0 : ℚ)], [2]] (fun _ => 1/2)
            (fun p => ⟨p, 0, p, true⟩)).getD (m + 1) [] =
          combinePoint ((fun _ : Nat => (1 : ℚ)/2) (m + 1))
            (bestPointOf (bestRecFrom (fun p => ⟨p, 0, p, true⟩) none
              ((scheduleStarts [[(0 : ℚ)], [2]] (fun _ => 1/2)
                (fun p => ⟨p, 0, p, true⟩)).take (m + 1))) [(0 : ℚ)])
            (([[(2 : ℚ)]] : List (List ℚ)).getD m []) :=
  scheduler_start_points [(0 : ℚ)] [[2]] (fun _ => 1/2)
    (fun p => ⟨p, 0, p, true⟩)

/-! ### Convergence Tracker (C4) -/

theorem trackerStep_preserves (tol : ℚ) (maxDisc : Nat)
    (st : TrackerState) (r : LocalOptimumRecord)
    (h : st.status = .converged ↔ maxDisc ≤ st.discoveries) :
    (trackerStep tol maxDisc st r).status = .converged ↔
      maxDisc ≤ (trackerStep tol maxDisc st r).discoveries := by
  unfold trackerStep
  rcases hst : st.status with _ | _
  · dsimp only
    split_ifs with hle
    · simp [hle]
    · simp [hle]
  · dsimp only
    exact h

theorem foldl_tracker_invariant (tol : ℚ) (maxDisc : Nat) :
    ∀ (l : List LocalOptimumRecord) (st : TrackerState),
      (st.status = .converged ↔ maxDisc ≤ st.discoveries) →
      ((l.foldl (trackerStep tol maxDisc) st).status = .converged ↔
        maxDisc ≤ (l.foldl (trackerStep tol maxDisc) st).discoveries) := by
  intro l
  induction l with
  | nil => intro st h; exact h
  | cons r rs ih =>
    intro st h
    exact ih _ (trackerStep_preserves tol maxDisc st r h)

/-- C4: in every run of the Convergence Tracker the state is `converged`
exactly when the rediscovery counter has reached
`convergence.max_discoveries`, at every prefix of the record stream: it
converges at the step where the counter first reaches the threshold and is
never `converged` while `discoveries < max_discoveries`. -/
theorem convergence_tracker_exact (tol : ℚ) (maxDisc : Nat)
    (hmd : 0 < maxDisc) (records : List LocalOptimumRecord) (i : Nat) :
    (runTracker tol maxDisc (records.take i)).status = .converged ↔
      maxDisc ≤ (runTracker tol maxDisc (records.take i)).discoveries := by
  unfold runTracker
  exact foldl_tracker_invariant tol maxDisc (records.take i) initTracker
    (by
      constructor
      · intro hcon
        exact absurd hcon (by simp [initTracker])
      · intro hle
        exact absurd hle (by simp [initTracker]; omega))

/-- Witness for C4 at a concrete input. -/
theorem convergence_tracker_exact_witness :
    (runTracker 0 1 (([⟨[0], 0, [0], true⟩, ⟨[0], 0, [0], true⟩] :
        List LocalOptimumRecord).take 2)).status = .converged ↔
      1 ≤ (runTracker 0 1 (([⟨[0], 0, [0], true⟩, ⟨[0], 0, [0], true⟩] :
        List LocalOptimumRecord).take 2)).discoveries :=
  convergence_tracker_exact 0 1 (by norm_num)
    [⟨[0], 0, [0], true⟩, ⟨[0], 0, [0], true⟩] 2

/-! ### Batch Evaluator (C5) -/

theorem chunkList_flatten (b : Nat) (hb : 0 < b) :
    ∀ (n : Nat) (l : List α), l.length ≤ n → (chunkList b l).flatten = l := by
  intro n
  induction n with
  | zero =>
    intro l hl
    have hnil : l = [] :=
      List.eq_nil_of_length_eq_zero (Nat.le_zero.mp hl)
    subst hnil
    simp [chunkList]
  | succ n ih =>
    intro l hl
    cases l with
    | nil => simp [chunkList]
    | cons x xs =>
      cases b with
      | zero => omega
      | succ b' =>
        rw [chunkList, List.flatten_cons, ih _ ?_, List.take_append_drop]
        rw [List.length_drop]
        simp only [List.length_cons] at hl ⊢
        omega

/-- C5: the Batch Evaluator's `map` returns identical ordered outputs for
`batch_size = n_cores` and `batch_size = 4 * n_cores`, and more generally any
positive batch size yields the ordered list `inputs.map f` — the batch size
changes only the scheduling granularity, never the results. -/
theorem batch_evaluator_batch_size_irrelevant (f : α → β) (inputs : List α)
    (n_cores : Nat) (hc : 0 < n_cores) :
    batchEvaluatorMap f inputs n_cores (4 * n_cores) =
        batchEvaluatorMap f inputs n_cores n_cores ∧
      batchEvaluatorMap f inputs n_cores n_cores = inputs.map f := by
  have key : ∀ b : Nat, 0 < b →
      batchEvaluatorMap f inputs n_cores b = inputs.map f := by
    intro b hb
    unfold batchEvaluatorMap
    rw [← List.map_flatten, chunkList_flatten b hb inputs.length inputs
      (le_refl _)]
  have h1 := key n_cores hc
  have h4 := key (4 * n_cores) (by omega)
  exact ⟨h4.trans h1.symm, h1⟩

/-- Witness for C5 at a concrete input. -/
theorem batch_evaluator_batch_size_irrelevant_witness :
    batchEvaluatorMap (fun n => n + 1) [1, 2, 3, 4, 5] 2 (4 * 2) =
        batchEvaluatorMap (fun n => n + 1) [1, 2, 3, 4, 5] 2 2 ∧
      batchEvaluatorMap (fun n => n + 1) [1, 2, 3, 4, 5] 2 2 =
        [1, 2, 3, 4, 5].map (fun n => n + 1) :=
  batch_evaluator_batch_size_irrelevant (fun n => n + 1) [1, 2, 3, 4, 5] 2
    (by norm_num)

/-! ### No ambient global random state (C7) -/

theorem drawPermW_eq :
    ∀ (fuel : Nat) (l : List Nat) (s : Nat) (w : AmbientState),
      drawPermW fuel l (s, w) =
        ((drawPerm fuel l s).1, ((drawPerm fuel l s).2, w)) := by
  intro fuel
  induction fuel with
  | zero => intro l s w; rfl
  | succ n ih =>
    intro l s w
    cases l with
    | nil => rfl
    | cons a t =>
      simp only [drawPermW, drawPerm, lcgW, ih]

theorem drawPermsW_eq :
    ∀ (dd k : Nat) (s : Nat) (w : AmbientState),
      drawPermsW dd k (s, w) =
        ((drawPerms dd k s).1, ((drawPerms dd k s).2, w)) := by
  intro dd
  induction dd with
  | zero => intro k s w; rfl
  | succ n ih =>
    intro k s w
    simp only [drawPermsW, drawPerms, drawPermW_eq, ih]

theorem mkCoordsW_eq (radius : ℚ) (k i : Nat) :
    ∀ (cs : List ℚ) (perms : List (List Nat)) (s : Nat) (w : AmbientState),
      mkCoordsW radius k i cs perms (s, w) =
        ((mkCoords radius k i cs perms s).1,
          ((mkCoords radius k i cs perms s).2, w)) := by
  intro cs
  induction cs with
  | nil => intro perms s w; rfl
  | cons c cs ih =>
    intro perms s w
    simp only [mkCoordsW, mkCoords, lcgW, ih]

theorem mkPointsFromW_eq (center : List ℚ) (radius : ℚ) (k : Nat)
    (perms : List (List Nat)) :
    ∀ (r i : Nat) (s : Nat) (w : AmbientState),
      mkPointsFromW center radius k perms i r (s, w) =
        ((mkPointsFrom center radius k perms i r s).1,
          ((mkPointsFrom center radius k perms i r s).2, w)) := by
  intro r
  induction r with
  | zero => intro i s w; rfl
  | succ n ih =>
    intro i s w
    simp only [mkPointsFromW, mkPointsFrom, mkCoordsW_eq, ih]

theorem sampleLatinHypercubeW_eq (center : List ℚ) (radius : ℚ) (k : Nat)
    (s : Nat) (w : AmbientState) :
    sampleLatinHypercubeW center radius k (s, w) =
      ((sampleLatinHypercube center radius k s).1,
        ((sampleLatinHypercube center radius k s).2, w)) := by
  unfold sampleLatinHypercubeW sampleLatinHypercube
  rw [drawPermsW_eq]
  exact mkPointsFromW_eq center radius k _ k 0 _ w

theorem sampleSeqW_eq (center : List ℚ) (radius : ℚ) (k : Nat) :
    ∀ (n : Nat) (s : Nat) (w : AmbientState),
      sampleSeqW center radius k n (s, w) =
        ((sampleSeq center radius k n s).1,
          ((sampleSeq center radius k n s).2, w)) := by
  intro n
  induction n with
  | zero => intro s w; rfl
  | succ m ih =>
    intro s w
    simp only [sampleSeqW, sampleSeq, sampleLatinHypercubeW_eq, ih]

/-- C7: the Design Sampler's generate operation has no side effect beyond
consuming draws from the explicitly supplied random generator.  Executed in a
world carrying an ambient global random state next to the explicit generator
state, the sampler returns exactly the value of the ambient-free function of
its arguments and the explicit state, and leaves the ambient state untouched:
the design neither reads nor mutates global random state, so two calls with
identical arguments and identical generator states return identical
designs. -/
theorem design_sampler_no_global_state (center : List ℚ) (radius : ℚ)
    (n_points : Nat) (existing : Option (List (List ℚ)))
    (crit : OptimalityCriterion) (n_iter : Nat) (s : Nat) (w : AmbientState) :
    generateW center radius n_points existing crit n_iter s w =
      (get_next_trust_region_points_latin_hypercube center radius n_points
        existing crit n_iter s, w) := by
  unfold generateW get_next_trust_region_points_latin_hypercube searchDesign
  split_ifs with h1 h2 h3
  · rfl
  · rfl
  · rfl
  · dsimp only
    split_ifs with h4
    · rfl
    · rw [sampleSeqW_eq]

end Estimagic
